import Mathlib

/-!
Verification of the line-reconstruction pipeline of
`install/extract_text_from_image.py`.

The script's post-recognition logic is a pure function of the OCR results
list: it sorts detections by (y-center, x-min), groups consecutive
detections whose y-centers differ by at most `y_tolerance`, joins each
group's texts with single spaces and the lines with newlines, and exits
with code 1 (silently) when the assembled document strips to the empty
string.  We embed that logic here over exact rationals (the Python floats
carry pixel coordinates; the algorithm only adds, divides by 4, compares
and takes absolute differences, so ℚ models the intent) and prove the
specification's claims about it.
-/

namespace ExtractText

/-- One OCR detection, as in `results`: a bounding box (list of points,
EasyOCR always yields four), a recognized text and a confidence score.
In the Python source this is the tuple `(bbox, text, confidence)`. -/
structure Detection where
  bbox : List (ℚ × ℚ)
  text : String
  confidence : ℚ
deriving DecidableEq, Repr

/-- `y_tolerance = 10.0` from the source: text within this y-range is
considered the same line. -/
def y_tolerance : ℚ := 10

/-- `get_y_center(bbox)`: the arithmetic mean of the y-coordinates of the
bounding box's points (`sum(y_coords) / len(y_coords)`).  Python would
raise on an empty box; EasyOCR boxes always have four points, and ℚ
division by zero returns 0, which no claim touches. -/
def get_y_center (bbox : List (ℚ × ℚ)) : ℚ :=
  (bbox.map Prod.snd).sum / (bbox.length : ℚ)

/-- `get_x_min(bbox)`: the minimum of the x-coordinates
(`min(x_coords)`); Python's `min` of a nonempty list is a left fold. -/
def get_x_min (bbox : List (ℚ × ℚ)) : ℚ :=
  match bbox.map Prod.fst with
  | [] => 0
  | x :: xs => xs.foldl min x

/-- The sort key order used by
`sorted(results, key=lambda r: (get_y_center(r[0]), get_x_min(r[0])))`:
Python compares key tuples lexicographically, so `a` may stay before `b`
iff its key pair is less or equal in the lexicographic order. -/
def keyLe (a b : Detection) : Prop :=
  get_y_center a.bbox < get_y_center b.bbox ∨
    (get_y_center a.bbox = get_y_center b.bbox ∧
      get_x_min a.bbox ≤ get_x_min b.bbox)

instance : DecidableRel keyLe := fun a b => by
  unfold keyLe; infer_instance

instance : IsTotal Detection keyLe where
  total a b := by
    unfold keyLe
    rcases lt_trichotomy (get_y_center a.bbox) (get_y_center b.bbox) with h | h | h
    · exact Or.inl (Or.inl h)
    · rcases le_total (get_x_min a.bbox) (get_x_min b.bbox) with h2 | h2
      · exact Or.inl (Or.inr ⟨h, h2⟩)
      · exact Or.inr (Or.inr ⟨h.symm, h2⟩)
    · exact Or.inr (Or.inl h)

instance : IsTrans Detection keyLe where
  trans a b c hab hbc := by
    unfold keyLe at *
    rcases hab with h1 | ⟨h1, h1x⟩ <;> rcases hbc with h2 | ⟨h2, h2x⟩
    · exact Or.inl (h1.trans h2)
    · exact Or.inl (h2 ▸ h1)
    · exact Or.inl (h1 ▸ h2)
    · exact Or.inr ⟨h1.trans h2, h1x.trans h2x⟩

/-- `sorted_results`: Python's `sorted` is a stable sort by the key pair;
we model it as the stable insertion sort on `keyLe` (Mathlib's
`orderedInsert` places the inserted, originally-earlier element before
the first later element it is `keyLe`-below, which is exactly stable
sorting by a key). -/
def sorted_results (results : List Detection) : List Detection :=
  results.insertionSort keyLe

/-- The `for (bbox, text, confidence) in sorted_results:` loop, carried
state `(line_groups, current_line, last_y)` made explicit.  Each step
computes `current_y`; if `last_y` is set and `|current_y - last_y| >
y_tolerance`, a nonempty `current_line` is closed; the detection is then
appended to `current_line` and `last_y` updated. -/
def group_loop :
    List Detection → List (List Detection) → List Detection → Option ℚ →
      List (List Detection) × List Detection
  | [], gs, current_line, _ => (gs, current_line)
  | d :: rest, gs, current_line, none =>
    group_loop rest gs (current_line ++ [d]) (some (get_y_center d.bbox))
  | d :: rest, gs, current_line, some last_y =>
    if y_tolerance < |get_y_center d.bbox - last_y| then
      if current_line ≠ [] then
        group_loop rest (gs ++ [current_line]) [d] (some (get_y_center d.bbox))
      else
        group_loop rest gs (current_line ++ [d]) (some (get_y_center d.bbox))
    else
      group_loop rest gs (current_line ++ [d]) (some (get_y_center d.bbox))

/-- The trailing `if current_line: line_groups.append(current_line)`
after the loop. -/
def close_groups (st : List (List Detection) × List Detection) :
    List (List Detection) :=
  if st.2 = [] then st.1 else st.1 ++ [st.2]

/-- `line_groups`: the loop over the sorted results followed by closing
the final nonempty `current_line`. -/
def line_groups (sorted : List Detection) : List (List Detection) :=
  close_groups (group_loop sorted [] [] none)

/-- The loop body building `extracted_lines` from one `line_group`: its
texts (`line_text_parts`) joined by single spaces, skipped only when the
parts list itself is empty (`if line_text_parts:` tests the list, not
the strings). -/
def line_of_group (line_group : List Detection) : Option String :=
  let line_text_parts := line_group.map fun d => d.text
  if line_text_parts ≠ [] then
    some (String.intercalate " " line_text_parts)
  else none

/-- `extracted_lines`: one joined string per line group, in order. -/
def extracted_lines (gs : List (List Detection)) : List String :=
  gs.filterMap line_of_group

/-- The Line Reconstructor end to end: `extracted_text =
"\n".join(extracted_lines)` over the groups of the sorted results. -/
def line_reconstructor (results : List Detection) : String :=
  String.intercalate "\n" (extracted_lines (line_groups (sorted_results results)))

/-- Python's `str.strip()` with no argument: drop leading and trailing
whitespace characters (modelled on the character list with Lean's
`Char.isWhitespace`, which covers the ASCII whitespace relevant here). -/
def strip (s : String) : String :=
  ⟨(((s.data.dropWhile Char.isWhitespace).reverse.dropWhile
      Char.isWhitespace).reverse)⟩

/-- Observable outcome of `main` after recognition succeeded with
`results`: exit code, stdout payload, stderr payload.  The source does
`if not extracted_text.strip(): return 1` (writing nothing), else
`print(extracted_text); return 0`. -/
structure RunResult where
  exitCode : Nat
  stdout : String
  stderr : String
deriving DecidableEq, Repr

/-- The tail of `main` from `extracted_text` on (lines 104-112 of the
source): `if not extracted_text.strip(): return 1` writes nothing to
either stream; otherwise `print(extracted_text)` and `return 0`. -/
def main_after_recognition (results : List Detection) : RunResult :=
  if strip (line_reconstructor results) = "" then
    ⟨1, "", ""⟩
  else
    ⟨0, line_reconstructor results ++ "\n", ""⟩

/-- Two consecutive sorted detections lie on the same visual line when
their y-centers differ by at most `y_tolerance` (the spec's membership
criterion, applied between immediate neighbours). -/
def sameLine (a b : Detection) : Prop :=
  |get_y_center b.bbox - get_y_center a.bbox| ≤ y_tolerance

instance : DecidableRel sameLine := fun a b => by
  unfold sameLine; infer_instance

/-- Modelled from the spec's words (§4.2 step 3): the group of the leading
detection `d` extends through each next detection `e` exactly while
`sameLine` holds between immediate neighbours, and a fresh group starts
at each violation. -/
def chunks (d : Detection) : List Detection → List (List Detection)
  | [] => [[d]]
  | e :: rest =>
    if sameLine d e then
      match chunks e rest with
      | [] => [[d]]
      | g :: gs => (d :: g) :: gs
    else
      [d] :: chunks e rest

/-- Modelled from the spec's words: the grouping of a sorted sequence is
its partition into maximal runs in which every two adjacent detections
satisfy `sameLine`. -/
def spec_line_groups : List Detection → List (List Detection)
  | [] => []
  | d :: rest => chunks d rest

/-- The sort key pair `(get_y_center(bbox), get_x_min(bbox))` of a
detection, as built by the `key` lambda of `sorted`. -/
def detKey (d : Detection) : ℚ × ℚ :=
  (get_y_center d.bbox, get_x_min d.bbox)

/-- Two detections that agree on everything the algorithm reads (bounding
box and text), differing at most in their confidence score. -/
def sameModConf (a b : Detection) : Prop :=
  a.bbox = b.bbox ∧ a.text = b.text

/-- A string of `n` space characters. -/
def spacesStr (n : Nat) : String :=
  ⟨List.replicate n ' '⟩

/-- The spec's single-line-merge example: `"Hello"` detection. -/
def d_hello : Detection := ⟨[(0, 0), (10, 0), (10, 5), (0, 5)], "Hello", 9/10⟩

/-- The spec's single-line-merge example: `"World"` detection. -/
def d_world : Detection := ⟨[(20, 1), (30, 1), (30, 6), (20, 6)], "World", 8/10⟩

/-- A same-bbox copy of `d_hello` with a different confidence. -/
def d_hello_c : Detection := ⟨[(0, 0), (10, 0), (10, 5), (0, 5)], "Hello", 1/10⟩

/-- A same-bbox copy of `d_world` with a different confidence. -/
def d_world_c : Detection := ⟨[(20, 1), (30, 1), (30, 6), (20, 6)], "World", 1/2⟩

/-- An empty-text detection at y-center 5/2, x-min 0. -/
def d_empty_left : Detection := ⟨[(0, 0), (10, 0), (10, 5), (0, 5)], "", 1⟩

/-- An empty-text detection at y-center 5/2, x-min 20. -/
def d_empty_right : Detection := ⟨[(20, 0), (30, 0), (30, 5), (20, 5)], "", 1⟩

/-- A detection whose text is a single space (whitespace-only document). -/
def d_space : Detection := ⟨[(0, 0), (10, 0), (10, 5), (0, 5)], " ", 1⟩

/-- Text `"L"` at y-center 5/2, x-min 0. -/
def d_left : Detection := ⟨[(0, 0), (10, 0), (10, 5), (0, 5)], "L", 1⟩

/-- Text `"R"` at y-center 5/2, x-min 20. -/
def d_right : Detection := ⟨[(20, 0), (30, 0), (30, 5), (20, 5)], "R", 1⟩

/-- The spec's two-line-split example: `"Goodbye"` at y-center 105/2. -/
def d_goodbye : Detection := ⟨[(0, 50), (10, 50), (10, 55), (0, 55)], "Goodbye", 1⟩

/-- Text `"A"`, full key tie with `d_tie_b`. -/
def d_tie_a : Detection := ⟨[(0, 0), (10, 0), (10, 5), (0, 5)], "A", 1⟩

/-- Text `"B"`, full key tie with `d_tie_a` (same bounding box). -/
def d_tie_b : Detection := ⟨[(0, 0), (10, 0), (10, 5), (0, 5)], "B", 1⟩

/-! ## Lemmas about the grouping walk -/

/-- The spec-side chunking never produces an empty group list for a
nonempty input. -/
lemma chunks_ne_nil (d : Detection) (l : List Detection) :
    chunks d l ≠ [] := by
  cases l with
  | nil => simp [chunks]
  | cons e rest =>
    unfold chunks
    by_cases h : sameLine d e
    · simp only [if_pos h]
      cases chunks e rest <;> simp
    · simp [if_neg h]

lemma modifyHead_nil_append (L : List (List Detection)) :
    L.modifyHead (fun g => [] ++ g) = L := by
  cases L <;> simp

/-- Invariant of the grouping walk: from a state whose current line ends
in `d` (with `last_y` equal to `d`'s y-center), running the loop and
closing the final group appends exactly the spec-side chunks led by `d`,
the first of them glued onto the pending prefix `c`. -/
lemma close_group_loop (rest : List Detection) :
    ∀ (gs : List (List Detection)) (c : List Detection) (d : Detection),
      close_groups (group_loop rest gs (c ++ [d]) (some (get_y_center d.bbox)))
        = gs ++ (chunks d rest).modifyHead (fun g => c ++ g) := by
  induction rest with
  | nil =>
    intro gs c d
    simp [group_loop, close_groups, chunks]
  | cons e rest2 ih =>
    intro gs c d
    by_cases h : sameLine d e
    · have hle : ¬ y_tolerance < |get_y_center e.bbox - get_y_center d.bbox| :=
        not_lt.mpr h
      rw [group_loop, if_neg hle, ih gs (c ++ [d]) e]
      obtain ⟨g, gs2, hg⟩ : ∃ g gs2, chunks e rest2 = g :: gs2 := by
        cases hc : chunks e rest2 with
        | nil => exact absurd hc (chunks_ne_nil e rest2)
        | cons g gs2 => exact ⟨g, gs2, rfl⟩
      simp [chunks, if_pos h, hg]
    · have hlt : y_tolerance < |get_y_center e.bbox - get_y_center d.bbox| :=
        not_le.mp h
      rw [group_loop, if_pos hlt,
        if_pos (by simp : (c ++ [d] : List Detection) ≠ [])]
      have he : [e] = [] ++ [e] := rfl
      rw [he, ih (gs ++ [c ++ [d]]) [] e, modifyHead_nil_append]
      simp [chunks, if_neg h]

/-- The source's grouping walk computes exactly the spec-side chunking
into maximal `sameLine`-runs. -/
lemma line_groups_eq_spec (l : List Detection) :
    line_groups l = spec_line_groups l := by
  cases l with
  | nil => rfl
  | cons d rest =>
    show close_groups (group_loop (d :: rest) [] [] none) = chunks d rest
    have h1 : group_loop (d :: rest) [] [] none
        = group_loop rest [] ([] ++ [d]) (some (get_y_center d.bbox)) := rfl
    rw [h1, close_group_loop, modifyHead_nil_append]
    rfl

/-- Flattening the chunks recovers the walked sequence. -/
lemma chunks_flatten (d : Detection) (l : List Detection) :
    (chunks d l).flatten = d :: l := by
  induction l generalizing d with
  | nil => simp [chunks]
  | cons e rest ih =>
    unfold chunks
    by_cases h : sameLine d e
    · simp only [if_pos h]
      cases hc : chunks e rest with
      | nil => exact absurd hc (chunks_ne_nil e rest)
      | cons g gs2 =>
        have h2 := ih e
        rw [hc] at h2
        simpa using h2
    · simpa [if_neg h] using ih e

/-- Flattening the line groups recovers the input sequence. -/
lemma line_groups_flatten (l : List Detection) :
    (line_groups l).flatten = l := by
  rw [line_groups_eq_spec]
  cases l with
  | nil => rfl
  | cons d rest => exact chunks_flatten d rest

/-- The first chunk starts with the leading detection. -/
lemma chunks_cons_head (e : Detection) (rest : List Detection) :
    ∃ g gs, chunks e rest = (e :: g) :: gs := by
  cases rest with
  | nil => exact ⟨[], [], rfl⟩
  | cons f r =>
    unfold chunks
    by_cases h : sameLine e f
    · rw [if_pos h]
      cases hc : chunks f r with
      | nil => exact absurd hc (chunks_ne_nil f r)
      | cons g gs => exact ⟨g, gs, rfl⟩
    · rw [if_neg h]
      exact ⟨[], chunks f r, rfl⟩

/-! ## Lemmas about the stable key sort -/

/-- Equal sort keys are comparable in the sort's order: ties never force
a swap. -/
lemma keyLe_of_detKey_eq {a b : Detection} (h : detKey a = detKey b) :
    keyLe a b := by
  have h1 : get_y_center a.bbox = get_y_center b.bbox := congrArg Prod.fst h
  have h2 : get_x_min a.bbox = get_x_min b.bbox := congrArg Prod.snd h
  exact Or.inr ⟨h1, le_of_eq h2⟩

/-- Inserting `a` into `l` leaves the sublist of any fixed key `k`
untouched, except that it gains `a` at the front when `a` itself has key
`k`: `orderedInsert` skips only strictly smaller keys. -/
lemma filter_orderedInsert_key (a : Detection) (k : ℚ × ℚ) :
    ∀ l : List Detection,
      (l.orderedInsert keyLe a).filter (fun d => decide (detKey d = k))
        = if detKey a = k
            then a :: l.filter (fun d => decide (detKey d = k))
            else l.filter (fun d => decide (detKey d = k)) := by
  intro l
  induction l with
  | nil =>
    by_cases hk : detKey a = k <;>
      simp [List.orderedInsert, List.filter, hk]
  | cons b t ih =>
    by_cases hab : keyLe a b
    · rw [List.orderedInsert, if_pos hab]
      by_cases hk : detKey a = k <;>
        simp [List.filter_cons, hk]
    · rw [List.orderedInsert, if_neg hab]
      by_cases hk : detKey a = k
      · have hbk : detKey b ≠ k := fun hbk =>
          hab (keyLe_of_detKey_eq (hk.trans hbk.symm))
        simp [List.filter_cons, hbk, hk, ih]
      · simp [List.filter_cons, hk, ih]

/-- Stability of the modelled sort: for every key value `k`, the
detections carrying key `k` appear in `sorted_results l` in exactly
their input order. -/
lemma filter_sorted_results (l : List Detection) (k : ℚ × ℚ) :
    (sorted_results l).filter (fun d => decide (detKey d = k))
      = l.filter (fun d => decide (detKey d = k)) := by
  induction l with
  | nil => rfl
  | cons a t ih =>
    show ((t.insertionSort keyLe).orderedInsert keyLe a).filter _ = _
    rw [filter_orderedInsert_key, List.filter_cons]
    simp only [sorted_results] at ih
    by_cases hk : detKey a = k <;> simp [hk, ih]

/-! ## Congruence of the pipeline in everything but confidence -/

lemma sameModConf_keyLe {a a' b b' : Detection} (ha : sameModConf a a')
    (hb : sameModConf b b') : keyLe a b ↔ keyLe a' b' := by
  unfold keyLe
  rw [ha.1, hb.1]

lemma sameModConf_sameLine {a a' b b' : Detection} (ha : sameModConf a a')
    (hb : sameModConf b b') : sameLine a b ↔ sameLine a' b' := by
  unfold sameLine
  rw [ha.1, hb.1]

lemma forall₂_orderedInsert {a a' : Detection} {l l' : List Detection}
    (ha : sameModConf a a') (h : List.Forall₂ sameModConf l l') :
    List.Forall₂ sameModConf (l.orderedInsert keyLe a)
      (l'.orderedInsert keyLe a') := by
  induction h with
  | nil => exact List.Forall₂.cons ha List.Forall₂.nil
  | @cons b b' t t' hb htail ih =>
    by_cases hab : keyLe a b
    · rw [List.orderedInsert, if_pos hab, List.orderedInsert,
        if_pos ((sameModConf_keyLe ha hb).mp hab)]
      exact List.Forall₂.cons ha (List.Forall₂.cons hb htail)
    · rw [List.orderedInsert, if_neg hab, List.orderedInsert,
        if_neg (fun hx => hab ((sameModConf_keyLe ha hb).mpr hx))]
      exact List.Forall₂.cons hb ih

lemma forall₂_sorted_results {l l' : List Detection}
    (h : List.Forall₂ sameModConf l l') :
    List.Forall₂ sameModConf (sorted_results l) (sorted_results l') := by
  induction h with
  | nil => exact List.Forall₂.nil
  | cons ha _ ih => exact forall₂_orderedInsert ha ih

lemma forall₂_chunks {d d' : Detection} {l l' : List Detection}
    (hd : sameModConf d d') (h : List.Forall₂ sameModConf l l') :
    List.Forall₂ (List.Forall₂ sameModConf) (chunks d l) (chunks d' l') := by
  induction h generalizing d d' with
  | nil =>
    exact List.Forall₂.cons (List.Forall₂.cons hd List.Forall₂.nil)
      List.Forall₂.nil
  | @cons e e' t t' he htail ih =>
    unfold chunks
    by_cases hs : sameLine d e
    · rw [if_pos hs, if_pos ((sameModConf_sameLine hd he).mp hs)]
      have hrec := ih he
      cases hc : chunks e t with
      | nil => exact absurd hc (chunks_ne_nil e t)
      | cons g gs =>
        cases hc' : chunks e' t' with
        | nil => exact absurd hc' (chunks_ne_nil e' t')
        | cons g' gs' =>
          rw [hc, hc'] at hrec
          cases hrec with
          | cons hg hgs =>
            exact List.Forall₂.cons (List.Forall₂.cons hd hg) hgs
    · rw [if_neg hs, if_neg (fun hx => hs ((sameModConf_sameLine hd he).mpr hx))]
      exact List.Forall₂.cons (List.Forall₂.cons hd List.Forall₂.nil) (ih he)

lemma forall₂_spec_line_groups {l l' : List Detection}
    (h : List.Forall₂ sameModConf l l') :
    List.Forall₂ (List.Forall₂ sameModConf) (spec_line_groups l)
      (spec_line_groups l') := by
  cases h with
  | nil => exact List.Forall₂.nil
  | cons hd htail => exact forall₂_chunks hd htail

lemma forall₂_texts {g g' : List Detection}
    (h : List.Forall₂ sameModConf g g') :
    g.map (fun d => d.text) = g'.map (fun d => d.text) := by
  induction h with
  | nil => rfl
  | cons hd _ ih => simp [hd.2, ih]

lemma line_of_group_congr {g g' : List Detection}
    (h : List.Forall₂ sameModConf g g') :
    line_of_group g = line_of_group g' := by
  unfold line_of_group
  rw [forall₂_texts h]

lemma extracted_lines_congr {gs gs' : List (List Detection)}
    (h : List.Forall₂ (List.Forall₂ sameModConf) gs gs') :
    extracted_lines gs = extracted_lines gs' := by
  induction h with
  | nil => rfl
  | cons hg _ ih =>
    simp only [extracted_lines, List.filterMap_cons] at ih ⊢
    rw [line_of_group_congr hg, ih]

/-! ## Joining all-empty texts -/

lemma space_append_spacesStr (n : Nat) :
    " " ++ spacesStr n = spacesStr (n + 1) := by
  show String.mk ([' '] ++ List.replicate n ' ') = String.mk (List.replicate (n + 1) ' ')
  rw [List.replicate_succ]
  rfl

lemma intercalate_go_replicate_empty (n : Nat) :
    ∀ acc : String,
      String.intercalate.go acc " " (List.replicate n "") = acc ++ spacesStr n := by
  induction n with
  | zero =>
    intro acc
    show acc = acc ++ ""
    simp
  | succ m ih =>
    intro acc
    show String.intercalate.go (acc ++ " " ++ "") " " (List.replicate m "")
      = acc ++ spacesStr (m + 1)
    rw [ih, ← space_append_spacesStr]
    simp [String.append_assoc]

lemma intercalate_replicate_empty (n : Nat) :
    String.intercalate " " (List.replicate (n + 1) "") = spacesStr n := by
  show String.intercalate.go "" " " (List.replicate n "") = spacesStr n
  rw [intercalate_go_replicate_empty]
  simp

/-! ## The claims -/

/-- C1: in the grouping walk, a new Line Group starts exactly when the
current detection's y-center differs from the immediately preceding
detection's y-center (`last_y`, updated at every step) by more than
`y_tolerance = 10`: the walk computes precisely the partition of the
sorted sequence into maximal runs whose adjacent members satisfy
`sameLine`, so consecutive sorted detections share a group iff their
y-centers are within tolerance, and membership may drift across a tall
paragraph. -/
theorem grouping_pairs_within_tolerance :
    (∀ l : List Detection, line_groups l = spec_line_groups l) ∧
      (∀ (d e : Detection) (rest : List Detection), sameLine d e →
        ∃ g gs, line_groups (d :: e :: rest) = (d :: e :: g) :: gs) ∧
      (∀ (d e : Detection) (rest : List Detection), ¬ sameLine d e →
        line_groups (d :: e :: rest) = [d] :: line_groups (e :: rest)) := by
  refine ⟨line_groups_eq_spec, ?_, ?_⟩
  · intro d e rest h
    rw [line_groups_eq_spec]
    show ∃ g gs, chunks d (e :: rest) = (d :: e :: g) :: gs
    obtain ⟨g, gs, hc⟩ := chunks_cons_head e rest
    refine ⟨g, gs, ?_⟩
    rw [chunks, if_pos h, hc]
  · intro d e rest h
    rw [line_groups_eq_spec, line_groups_eq_spec]
    show chunks d (e :: rest) = [d] :: chunks e rest
    rw [chunks, if_neg h]

/-- Witness for C1: the Hello/Goodbye pair of the spec (y-centers 5/2
and 105/2, 50 apart, beyond tolerance) splits exactly between them. -/
theorem grouping_pairs_within_tolerance_witness :
    line_groups [d_hello, d_goodbye] = [d_hello] :: line_groups [d_goodbye] :=
  grouping_pairs_within_tolerance.2.2 d_hello d_goodbye []
    (by norm_num [sameLine, get_y_center, d_hello, d_goodbye, y_tolerance, abs])

/-- C2: `sorted_results` orders every pair of detections in its output by
the lexicographic key (y-center of the quad's points' mean, minimum
x-coordinate): primary key vertical position, secondary key horizontal
position. -/
theorem sorted_by_ycenter_then_xmin (l : List Detection) :
    List.Sorted keyLe (sorted_results l) :=
  List.sorted_insertionSort keyLe l

/-- C3: every input detection lands in exactly one line group — the
groups flatten to a permutation of the input, and the group sizes sum to
the input length; the empty input yields no groups at all. -/
theorem coverage_partition :
    (∀ l : List Detection,
        ((line_groups (sorted_results l)).flatten).Perm l ∧
          ((line_groups (sorted_results l)).map List.length).sum = l.length) ∧
      line_groups (sorted_results []) = [] := by
  constructor
  · intro l
    have h1 : (line_groups (sorted_results l)).flatten = sorted_results l :=
      line_groups_flatten _
    constructor
    · rw [h1]
      exact List.perm_insertionSort keyLe l
    · rw [← List.length_flatten, h1]
      exact (List.perm_insertionSort keyLe l).length_eq
  · rfl

/-- C4 (counterexample): two detections on one line whose texts are both
empty after stripping form a single Line Group, yet the line contributed
for that group is a single space, not the empty string — `" ".join` of
n empty parts has n−1 separators. -/
theorem empty_texts_counterexample :
    (∀ d ∈ [d_empty_left, d_empty_right], strip d.text = "") ∧
      line_groups (sorted_results [d_empty_left, d_empty_right])
        = [[d_empty_left, d_empty_right]] ∧
      extracted_lines (line_groups (sorted_results [d_empty_left, d_empty_right]))
        = [" "] ∧
      (" " : String) ≠ "" := by
  have hg : line_groups (sorted_results [d_empty_left, d_empty_right])
      = [[d_empty_left, d_empty_right]] := by
    norm_num [line_groups, group_loop, close_groups, sorted_results,
      List.insertionSort, List.orderedInsert, keyLe, get_y_center, get_x_min,
      y_tolerance, d_empty_left, d_empty_right, abs]
    try decide
  refine ⟨by decide, hg, ?_, by decide⟩
  rw [hg]
  rfl

/-- C4 (amended): a Line Group of n members whose texts are all the
empty string contributes the string of n−1 space characters — the empty
string exactly when the group is a singleton; in particular the
contribution is always whitespace-only, but not empty for two or more
members. -/
theorem empty_texts_line_spaces (g : List Detection) (hne : g ≠ [])
    (hall : ∀ d ∈ g, d.text = "") :
    extracted_lines [g] = [spacesStr (g.length - 1)] := by
  cases g with
  | nil => exact absurd rfl hne
  | cons a t =>
    have hparts : (a :: t).map (fun d => d.text)
        = List.replicate ((a :: t).map fun d => d.text).length "" :=
      List.eq_replicate_of_mem (fun b hb => by
        obtain ⟨d, hd, rfl⟩ := List.mem_map.mp hb
        exact hall d hd)
    rw [List.length_map] at hparts
    simp [extracted_lines, line_of_group, hparts, List.replicate_succ,
      ← List.replicate_succ, intercalate_replicate_empty]

/-- Witness for C4 (amended): a two-member all-empty group contributes
exactly one space. -/
theorem empty_texts_line_spaces_witness :
    extracted_lines [[d_empty_left, d_empty_right]] = [spacesStr 1] :=
  empty_texts_line_spaces [d_empty_left, d_empty_right] (by decide) (by decide)

/-- C5: zero detections, and more generally any result list whose
assembled document strips to the empty string, make the modelled tail of
`main` return exit code 1 with nothing on stdout and nothing on stderr —
the identical silent `EmptyResult` outcome in both cases. -/
theorem empty_result_silent :
    main_after_recognition [] = ⟨1, "", ""⟩ ∧
      ∀ results : List Detection,
        strip (line_reconstructor results) = "" →
          main_after_recognition results = ⟨1, "", ""⟩ := by
  constructor
  · rfl
  · intro results h
    unfold main_after_recognition
    rw [if_pos h]

/-- Witness for C5: a whitespace-only document (one detection whose text
is a single space) takes the silent exit-1 branch. -/
theorem empty_result_silent_witness :
    main_after_recognition [d_space] = ⟨1, "", ""⟩ :=
  empty_result_silent.2 [d_space] rfl

/-- C6: the spec's two example detections (y-centers 5/2 and 7/2, one
unit apart, within tolerance) produce the single-line document
`"Hello World"` in either input order. -/
theorem single_line_merge_example :
    get_y_center d_hello.bbox = 5 / 2 ∧ get_y_center d_world.bbox = 7 / 2 ∧
      line_reconstructor [d_hello, d_world] = "Hello World" ∧
      line_reconstructor [d_world, d_hello] = "Hello World" := by
  refine ⟨by norm_num [get_y_center, d_hello], by norm_num [get_y_center, d_world], ?_, ?_⟩ <;>
  · norm_num [line_reconstructor, sorted_results, List.insertionSort,
      List.orderedInsert, keyLe, get_y_center, get_x_min, line_groups,
      group_loop, close_groups, y_tolerance, extracted_lines, line_of_group,
      d_hello, d_world, abs]
    try rfl

/-- C7: two detections with equal y-center and strictly increasing x-min
sort into that x order from either input order, land in one common line
group, and yield the same document regardless of input order. -/
theorem tie_break_same_line (d1 d2 : Detection)
    (hy : get_y_center d1.bbox = get_y_center d2.bbox)
    (hx : get_x_min d1.bbox < get_x_min d2.bbox) :
    sorted_results [d1, d2] = [d1, d2] ∧
      sorted_results [d2, d1] = [d1, d2] ∧
      line_groups (sorted_results [d1, d2]) = [[d1, d2]] ∧
      line_groups (sorted_results [d2, d1]) = [[d1, d2]] ∧
      line_reconstructor [d2, d1] = line_reconstructor [d1, d2] := by
  have h12 : keyLe d1 d2 := Or.inr ⟨hy, le_of_lt hx⟩
  have h21 : ¬ keyLe d2 d1 := by
    intro h
    rcases h with h | ⟨-, h⟩
    · exact absurd (hy ▸ h) (lt_irrefl _)
    · exact absurd hx (not_lt.mpr h)
  have hs1 : sorted_results [d1, d2] = [d1, d2] := by
    show (List.orderedInsert keyLe d2 []).orderedInsert keyLe d1 = _
    simp [List.orderedInsert, if_pos h12]
  have hs2 : sorted_results [d2, d1] = [d1, d2] := by
    show (List.orderedInsert keyLe d1 []).orderedInsert keyLe d2 = _
    simp [List.orderedInsert, if_neg h21]
  have hsame : sameLine d1 d2 := by
    unfold sameLine
    rw [← hy, sub_self, abs_zero]
    norm_num [y_tolerance]
  have hg : line_groups [d1, d2] = [[d1, d2]] := by
    rw [line_groups_eq_spec]
    show chunks d1 [d2] = _
    simp [chunks, if_pos hsame]
  refine ⟨hs1, hs2, ?_, ?_, ?_⟩
  · rw [hs1]; exact hg
  · rw [hs2]; exact hg
  · unfold line_reconstructor
    rw [hs1, hs2]

/-- Witness for C7: `"L"` at x-min 0 and `"R"` at x-min 20 on the same
y-center. -/
theorem tie_break_same_line_witness :
    sorted_results [d_left, d_right] = [d_left, d_right] ∧
      sorted_results [d_right, d_left] = [d_left, d_right] ∧
      line_groups (sorted_results [d_left, d_right]) = [[d_left, d_right]] ∧
      line_groups (sorted_results [d_right, d_left]) = [[d_left, d_right]] ∧
      line_reconstructor [d_right, d_left] = line_reconstructor [d_left, d_right] :=
  tie_break_same_line d_left d_right
    (by norm_num [get_y_center, d_left, d_right])
    (by norm_num [get_x_min, d_left, d_right])

/-- C8: the Line Reconstructor is a pure function of its input list — in
the embedding it has no state or effects, so any two evaluations on the
same detections give character-for-character the same document. -/
theorem reconstructor_deterministic (l1 l2 : List Detection) (h : l1 = l2) :
    line_reconstructor l1 = line_reconstructor l2 := by
  rw [h]

/-- Witness for C8. -/
theorem reconstructor_deterministic_witness :
    line_reconstructor [d_hello, d_world] = line_reconstructor [d_hello, d_world] :=
  reconstructor_deterministic [d_hello, d_world] [d_hello, d_world] rfl

/-- C9: confidence scores never influence the document: two detection
lists equal componentwise up to confidence (same boxes, same texts)
reconstruct to identical documents. -/
theorem confidence_independence {l l' : List Detection}
    (h : List.Forall₂ sameModConf l l') :
    line_reconstructor l = line_reconstructor l' := by
  unfold line_reconstructor
  rw [line_groups_eq_spec, line_groups_eq_spec]
  exact congrArg _
    (extracted_lines_congr (forall₂_spec_line_groups (forall₂_sorted_results h)))

/-- Witness for C9: the Hello/World pair with altered confidences. -/
theorem confidence_independence_witness :
    line_reconstructor [d_hello, d_world]
      = line_reconstructor [d_hello_c, d_world_c] :=
  confidence_independence
    (List.Forall₂.cons ⟨rfl, rfl⟩ (List.Forall₂.cons ⟨rfl, rfl⟩ List.Forall₂.nil))

/-- C10: the modelled sort is stable — for every key value the detections
carrying it keep their input order — and on a full key tie the document
therefore depends on the input order, as the concrete tied pair shows. -/
theorem sort_stable_full_key_ties :
    (∀ (l : List Detection) (k : ℚ × ℚ),
        (sorted_results l).filter (fun d => decide (detKey d = k))
          = l.filter (fun d => decide (detKey d = k))) ∧
      line_reconstructor [d_tie_a, d_tie_b] = "A B" ∧
      line_reconstructor [d_tie_b, d_tie_a] = "B A" ∧
      line_reconstructor [d_tie_a, d_tie_b]
        ≠ line_reconstructor [d_tie_b, d_tie_a] := by
  have h1 : line_reconstructor [d_tie_a, d_tie_b] = "A B" := by
    norm_num [line_reconstructor, sorted_results, List.insertionSort,
      List.orderedInsert, keyLe, get_y_center, get_x_min, line_groups,
      group_loop, close_groups, y_tolerance, extracted_lines, line_of_group,
      d_tie_a, d_tie_b, abs]
    try rfl
  have h2 : line_reconstructor [d_tie_b, d_tie_a] = "B A" := by
    norm_num [line_reconstructor, sorted_results, List.insertionSort,
      List.orderedInsert, keyLe, get_y_center, get_x_min, line_groups,
      group_loop, close_groups, y_tolerance, extracted_lines, line_of_group,
      d_tie_a, d_tie_b, abs]
    try rfl
  refine ⟨filter_sorted_results, h1, h2, ?_⟩
  rw [h1, h2]
  decide

end ExtractText
